import Mathlib

/-!
# rapidjson `GenericWReader` (include/rapidjson/wreader.h)

A shallow embedding of the chunk-fed reader of `wreader.h` and the properties
of it that the specification states.

Conventions of the embedding.

* A chunk is a `List Char`; `chunkSize` is its length. A pointer into the chunk
  is the `Nat` offset from `chunk`; `end` (which the source computes as
  `chunk + (chunkSize - 1)`) is an `Int`, so that the empty chunk gives `-1`.
* Reading a byte outside `[0, chunkSize)` is undefined behaviour in C++; here it
  is the fault `Fault.outOfBounds`. `abort()` is `Fault.aborted`, a failed
  `RAPIDJSON_ASSERT` is `Fault.assertion`.
* `size_t` is 64 bits wide, `SizeType` (`unsigned`) 32 bits.
* A handler is a function of the events it has received so far and the event
  it is being given; the list of events received is kept in `World.trace`.
* The diagnostics written to `stderr` are not part of the embedding.
* Loops and the `ParseValue`/`ParseArray` recursion run on fuel; `Write`
  supplies it, and `Fault.fuel` is what running out of it would give.
-/

namespace rapidjson

/-! ## Data model -/

/-- Modelled from the spec: the error kinds of `error/en.h` / `error/error.h`
that `wreader.h` uses (the enum itself is declared outside `wreader.h`). -/
inductive ParseErrorCode where
  | kParseErrorNone
  | kParseErrorValueInvalid
  | kParseErrorArrayMissCommaOrSquareBracket
  | kParseErrorTermination
  deriving DecidableEq, Repr

/-- Modelled from the spec: `ParseResult` is an error kind and an absolute byte
offset (the struct is declared outside `wreader.h`). -/
structure ParseResult where
  code_ : ParseErrorCode
  offset_ : Nat
  deriving DecidableEq, Repr

/-- Modelled from the spec: `ParseResult::Clear()`, "cleared on Init". -/
def ParseResult.Clear (_ : ParseResult) : ParseResult :=
  { code_ := .kParseErrorNone, offset_ := 0 }

/-- Modelled from the spec: `ParseResult::Set(code, offset)`. -/
def ParseResult.Set (_ : ParseResult) (code : ParseErrorCode) (offset : Nat) : ParseResult :=
  { code_ := code, offset_ := offset }

/-- Modelled from the spec: `ParseResult::IsError()`, the result holds an error kind. -/
def ParseResult.IsError (r : ParseResult) : Bool :=
  decide (r.code_ ≠ .kParseErrorNone)

/-- The states of `enum IterativeParsingState`. -/
inductive IterativeParsingState where
  | IterativeParsingFinishState
  | IterativeParsingErrorState
  | IterativeParsingStartState
  | IterativeParsingObjectInitialState
  | IterativeParsingMemberKeyState
  | IterativeParsingMemberValueState
  | IterativeParsingObjectFinishState
  | IterativeParsingArrayInitialState
  | IterativeParsingElementState
  | IterativeParsingArrayFinishState
  | IterativeParsingValueState
  | IterativeParsingElementDelimiterState
  | IterativeParsingMemberDelimiterState
  | IterativeParsingKeyValueDelimiterState
  deriving DecidableEq, Repr

/-- The data members of `GenericWReader` that the member functions read or
write (`stack_` and `completedIteration_` are never used). -/
structure Reader where
  parseResult_ : ParseResult
  state_ : IterativeParsingState
  offset_ : Nat
  deriving DecidableEq, Repr

/-- The calls a handler can receive. `wreader.h` itself only ever calls
`StartObject`, `EndObject`, `StartArray`, `EndArray`, `Bool` and `Null`;
`Key`, `String` and `Number` are the other members of the event sink. -/
inductive Event where
  | StartObject
  | EndObject (memberCount : Nat)
  | StartArray
  | EndArray (elementCount : Nat)
  | Key (text : List Char)
  | String (text : List Char)
  | Number (lexeme : List Char)
  | Bool (b : Bool)
  | Null
  deriving DecidableEq, Repr

/-- A handler: given the events it has received so far and the next event, it
answers `true` (go on) or `false` (reject). -/
abbrev Handler := List Event → Event → Bool

/-- The reader together with the record of the handler calls made so far. -/
structure World where
  reader : Reader
  trace : List Event
  deriving DecidableEq, Repr

/-- Ways in which a call does not return normally. -/
inductive Fault where
  | outOfBounds
  | assertion
  | aborted
  | fuel
  deriving DecidableEq, Repr

/-- Result of running a member function: it returns `a` in world `w`, or it
faults in world `w`. -/
inductive Res (α : Type) where
  | ok (a : α) (w : World)
  | fault (f : Fault) (w : World)
  deriving DecidableEq, Repr

/-- The world in which a run ended. -/
def Res.world {α : Type} : Res α → World
  | .ok _ w => w
  | .fault _ w => w

/-- The run returned normally. -/
def Res.isOk {α : Type} : Res α → Bool
  | .ok _ _ => true
  | .fault _ _ => false

/-- Modulus of `size_t` arithmetic. -/
def SIZE_MOD : Nat := 2 ^ 64

/-- Modulus of `SizeType` (`unsigned`) arithmetic. -/
def SIZETYPE_MOD : Nat := 2 ^ 32

/-- The byte at `chunk + p`, when that is inside the chunk. -/
def readAt (chunk : List Char) (p : Nat) : Option Char :=
  chunk.get? p

/-- Calling a handler member: the answer, and the world with the call recorded. -/
def callHandler (handler : Handler) (e : Event) (w : World) : Bool × World :=
  (handler w.trace e, { w with trace := w.trace ++ [e] })

/-! ## Public members -/

/-- Member `GenericWReader::IterativeParseInit`. -/
def IterativeParseInit (r : Reader) : Reader :=
  { parseResult_ := r.parseResult_.Clear
    state_ := .IterativeParsingStartState
    offset_ := 0 }

/-- Member `GenericWReader::IterativeParseFinish`. -/
def IterativeParseFinish (r : Reader) : ParseResult :=
  r.parseResult_

/-- Member `GenericWReader::HasParseError`. -/
def HasParseError (_ : Reader) : Bool :=
  false

/-- Member `GenericWReader::GetParseErrorCode`. -/
def GetParseErrorCode (_ : Reader) : ParseErrorCode :=
  .kParseErrorNone

/-- Member `GenericWReader::GetErrorOffset`. -/
def GetErrorOffset (_ : Reader) : Nat :=
  0

/-- Member `GenericWReader::SetParseError`. -/
def SetParseError (code : ParseErrorCode) (offset : Nat) (w : World) : World :=
  { w with reader := { w.reader with parseResult_ := w.reader.parseResult_.Set code offset } }

/-! ## The macros -/

/-- Macro `RAPIDJSON_PARSE_ERROR_EARLY_RETURN(value)`: return `value` when
`HasParseError()`, else go on with `k`. -/
def PARSE_ERROR_EARLY_RETURN (value : Nat) (w : World) (k : World → Res Nat) : Res Nat :=
  if HasParseError w.reader then .ok value w else k w

/-- Modelled from the spec: `RAPIDJSON_PARSE_ERROR_NORETURN(code, offset)` is
defined in `reader.h`, which is not part of the sources at hand; it asserts
that no error is held yet and latches the error through `SetParseError`. -/
def PARSE_ERROR_NORETURN (code : ParseErrorCode) (offset : Nat) (w : World)
    (k : World → Res Nat) : Res Nat :=
  if HasParseError w.reader then .fault .assertion w
  else k (SetParseError code offset w)

/-- Macro `RAPIDJSON_PARSE_ERROR_AT(parseErrorCode, p)`, expanded in a function whose
parameter is `start`: latch the error at `offset_ + (p - start)`, then return
`p` when `HasParseError()`, else go on with `k`. -/
def PARSE_ERROR_AT (code : ParseErrorCode) (p start : Nat) (w : World)
    (k : World → Res Nat) : Res Nat :=
  PARSE_ERROR_NORETURN code ((w.reader.offset_ + (p - start)) % SIZE_MOD) w
    (fun w1 => PARSE_ERROR_EARLY_RETURN p w1 k)

/-- Member `GenericWReader::IsWhiteSpace`, on the byte read. -/
def IsWhiteSpace (c : Char) : Bool :=
  c == ' ' || c == '\n' || c == '\r' || c == '\t'

/-- Member `GenericWReader::SignalIncomplete`. -/
def SignalIncomplete (restartHere : Nat) : Nat :=
  restartHere

/-- Macro `SKIP_WHITESPACE(p)`, expanded in a function whose parameter is `start`:
`while (IsWhiteSpace(p)) if ((++p) > end) return SignalIncomplete(start);`
and then `k` at the `p` reached. -/
def SKIP_WHITESPACE (chunk : List Char) (end_ : Int) (start : Nat) (w : World)
    (k : Nat → Res Nat) : Nat → Nat → Res Nat
  | 0, _ => .fault .fuel w
  | fuel + 1, p =>
    match readAt chunk p with
    | none => .fault .outOfBounds w
    | some c =>
      if IsWhiteSpace c then
        if ((p + 1 : Nat) : Int) > end_ then .ok (SignalIncomplete start) w
        else SKIP_WHITESPACE chunk end_ start w k fuel (p + 1)
      else k p

/-- Macro `SKIP_WHITESPACE(++p)`, expanded in a function whose parameter is `start`:
`while (IsWhiteSpace(++p)) if ((++++p) > end) return SignalIncomplete(start);`
and then `k` at the `p` reached. -/
def SKIP_WHITESPACE_INC (chunk : List Char) (end_ : Int) (start : Nat) (w : World)
    (k : Nat → Res Nat) : Nat → Nat → Res Nat
  | 0, _ => .fault .fuel w
  | fuel + 1, p =>
    match readAt chunk (p + 1) with
    | none => .fault .outOfBounds w
    | some c =>
      if IsWhiteSpace c then
        if ((p + 1 + 2 : Nat) : Int) > end_ then .ok (SignalIncomplete start) w
        else SKIP_WHITESPACE_INC chunk end_ start w k fuel (p + 1 + 2)
      else k (p + 1)

/-! ## The parsers -/

/-- Function `consume(&p, m)`: the answer and the new `p`. -/
def consume (chunk : List Char) (p : Nat) (m : Char) : Option (Bool × Nat) :=
  match readAt chunk p with
  | none => none
  | some c => if c = m then some (true, p + 1) else some (false, p)

/-- The chain `p[1] == c1 && p[2] == c2 && ...`, read left to right, `p` being
the position of the first byte compared. -/
def matchBytes (chunk : List Char) : Nat → List Char → Option Bool
  | _, [] => some true
  | p, c :: cs =>
    match readAt chunk p with
    | none => none
    | some x => if x = c then matchBytes chunk (p + 1) cs else some false

/-- The common shape of `ParseTrue`, `ParseFalse` and `ParseNull`: `first` is
the asserted first byte, `rest` the bytes compared after it, `e` the event. -/
def ParseLiteral (first : Char) (rest : List Char) (e : Event)
    (chunk : List Char) (end_ : Int) (handler : Handler) (start : Nat) (w : World) : Res Nat :=
  let p := start
  match readAt chunk p with
  | none => .fault .outOfBounds w
  | some c =>
    if c ≠ first then .fault .assertion w
    else if ((p + (rest.length + 1) : Nat) : Int) > end_ then .ok (SignalIncomplete start) w
    else
      match matchBytes chunk (p + 1) rest with
      | none => .fault .outOfBounds w
      | some true =>
        let accepted := (callHandler handler e w).1
        let w1 := (callHandler handler e w).2
        if !accepted then
          PARSE_ERROR_AT .kParseErrorTermination p start w1
            (fun w2 => .ok (p + (rest.length + 1)) w2)
        else .ok (p + (rest.length + 1)) w1
      | some false =>
        PARSE_ERROR_AT .kParseErrorValueInvalid p start w
          (fun w2 => .fault .aborted w2)

/-- Member `GenericWReader::ParseTrue`. -/
def ParseTrue (chunk : List Char) (end_ : Int) (handler : Handler) (start : Nat) (w : World) :
    Res Nat :=
  ParseLiteral 't' ['r', 'u', 'e'] (.Bool true) chunk end_ handler start w

/-- Member `GenericWReader::ParseFalse`. -/
def ParseFalse (chunk : List Char) (end_ : Int) (handler : Handler) (start : Nat) (w : World) :
    Res Nat :=
  ParseLiteral 'f' ['a', 'l', 's', 'e'] (.Bool false) chunk end_ handler start w

/-- Member `GenericWReader::ParseNull`. -/
def ParseNull (chunk : List Char) (end_ : Int) (handler : Handler) (start : Nat) (w : World) :
    Res Nat :=
  ParseLiteral 'n' ['u', 'l', 'l'] .Null chunk end_ handler start w

/-- Member `GenericWReader::ParseNumber`. -/
def ParseNumber (chunk : List Char) (start : Nat) (w : World) : Res Nat :=
  let p := start
  match consume chunk p '-' with
  | none => .fault .outOfBounds w
  | some (_, p) => .ok (p + 1) w

/-- Member `GenericWReader::ParseObject`. -/
def ParseObject (chunk : List Char) (end_ : Int) (handler : Handler) (start : Nat) (w : World) :
    Res Nat :=
  let p := start
  match readAt chunk p with
  | none => .fault .outOfBounds w
  | some c =>
    if c ≠ '{' then .fault .assertion w
    else
      let p := p + 1
      if (p : Int) > end_ then .ok (SignalIncomplete start) w
      else
        let accepted := (callHandler handler .StartObject w).1
        let w1 := (callHandler handler .StartObject w).2
        let afterStart : World → Res Nat := fun w2 =>
          PARSE_ERROR_EARLY_RETURN p w2 (fun w3 =>
            SKIP_WHITESPACE chunk end_ start w3 (fun p =>
              match readAt chunk p with
              | none => .fault .outOfBounds w3
              | some c =>
                if c = '}' then
                  let accepted := (callHandler handler (.EndObject 0) w3).1
                  let w4 := (callHandler handler (.EndObject 0) w3).2
                  if !accepted then
                    PARSE_ERROR_AT .kParseErrorTermination p start w4 (fun w5 => .ok (p + 1) w5)
                  else .ok (p + 1) w4
                else .ok (p + 1) w3) (chunk.length + 1) p)
        if !accepted then PARSE_ERROR_AT .kParseErrorTermination p start w1 afterStart
        else afterStart w1

/-- The `for (SizeType elementCount = 0;;)` loop of `ParseArray`; `parseValue`
is `ParseValue` on the same chunk, end and handler. -/
def ParseArrayLoop (parseValue : Nat → World → Res Nat) (chunk : List Char) (end_ : Int)
    (handler : Handler) (start : Nat) : Nat → Nat → Nat → World → Res Nat
  | 0, _, _, w => .fault .fuel w
  | fuel + 1, p, elementCount, w =>
    match parseValue p w with
    | .fault f w1 => .fault f w1
    | .ok p w1 =>
      PARSE_ERROR_EARLY_RETURN p w1 (fun w2 =>
        let elementCount := (elementCount + 1) % SIZETYPE_MOD
        SKIP_WHITESPACE chunk end_ start w2 (fun p =>
          PARSE_ERROR_EARLY_RETURN p w2 (fun w3 =>
            match readAt chunk p with
            | none => .fault .outOfBounds w3
            | some c =>
              if c = ',' then
                SKIP_WHITESPACE_INC chunk end_ start w3 (fun p =>
                  PARSE_ERROR_EARLY_RETURN p w3 (fun w4 => .ok (p + 1) w4))
                  (chunk.length + 1) p
              else if c = ']' then
                let accepted := (callHandler handler (.EndArray elementCount) w3).1
                let w4 := (callHandler handler (.EndArray elementCount) w3).2
                if !accepted then
                  PARSE_ERROR_AT .kParseErrorTermination p start w4 (fun w5 => .ok (p + 1) w5)
                else .ok (p + 1) w4
              else
                PARSE_ERROR_AT .kParseErrorArrayMissCommaOrSquareBracket p start w3 (fun w4 =>
                  ParseArrayLoop parseValue chunk end_ handler start fuel p elementCount w4)))
          (chunk.length + 1) p)

/-- Member `GenericWReader::ParseArray`; `parseValue` is `ParseValue` on the same
chunk, end and handler. -/
def ParseArray (parseValue : Nat → World → Res Nat) (chunk : List Char) (end_ : Int)
    (handler : Handler) (start : Nat) (w : World) : Res Nat :=
  let p := start
  match readAt chunk p with
  | none => .fault .outOfBounds w
  | some c =>
    if c ≠ '[' then .fault .assertion w
    else
      let p := p + 1
      if (p : Int) > end_ then .ok (SignalIncomplete start) w
      else
        let accepted := (callHandler handler .StartArray w).1
        let w1 := (callHandler handler .StartArray w).2
        let afterStart : World → Res Nat := fun w2 =>
          PARSE_ERROR_EARLY_RETURN p w2 (fun w3 =>
            SKIP_WHITESPACE chunk end_ start w3 (fun p =>
              match readAt chunk p with
              | none => .fault .outOfBounds w3
              | some c =>
                if c = ']' then
                  let accepted := (callHandler handler (.EndArray 0) w3).1
                  let w4 := (callHandler handler (.EndArray 0) w3).2
                  if !accepted then
                    PARSE_ERROR_AT .kParseErrorTermination p start w4 (fun w5 => .ok (p + 1) w5)
                  else .ok (p + 1) w4
                else
                  ParseArrayLoop parseValue chunk end_ handler start (chunk.length + 1) p 0 w3)
              (chunk.length + 1) p)
        if !accepted then PARSE_ERROR_AT .kParseErrorTermination p start w1 afterStart
        else afterStart w1

/-- The value a callee returned, plus one (`return ParseX(p, end, handler) + 1;`). -/
def plusOne : Res Nat → Res Nat
  | .ok p w => .ok (p + 1) w
  | .fault f w => .fault f w

/-- Member `GenericWReader::ParseValue`; the fuel bounds the nesting of arrays. -/
def ParseValue (chunk : List Char) (end_ : Int) (handler : Handler) :
    Nat → Nat → World → Res Nat
  | 0, _, w => .fault .fuel w
  | fuel + 1, p, w =>
    match readAt chunk p with
    | none => .fault .outOfBounds w
    | some c =>
      if c = '{' then plusOne (ParseObject chunk end_ handler p w)
      else if c = '[' then
        plusOne (ParseArray (ParseValue chunk end_ handler fuel) chunk end_ handler p w)
      else if c = 't' then plusOne (ParseTrue chunk end_ handler p w)
      else if c = 'f' then plusOne (ParseFalse chunk end_ handler p w)
      else if c = 'n' then plusOne (ParseNull chunk end_ handler p w)
      else plusOne (ParseNumber chunk p w)

/-- Member `GenericWReader::ProcessNext`. -/
def ProcessNext (chunk : List Char) (end_ : Int) (handler : Handler) (p : Nat) (w : World) :
    Res Nat :=
  match readAt chunk p with
  | none => .fault .outOfBounds w
  | some c =>
    if IsWhiteSpace c then .ok (p + 1) w
    else ParseValue chunk end_ handler (chunk.length + 1) p w

/-- The `while (next <= end)` loop of `Write`. -/
def WriteLoop (chunk : List Char) (end_ : Int) (handler : Handler) :
    Nat → Nat → World → Res Unit
  | 0, _, w => .fault .fuel w
  | fuel + 1, next, w =>
    if (next : Int) ≤ end_ then
      let current := next
      match ProcessNext chunk end_ handler current w with
      | .fault f w1 => .fault f w1
      | .ok next w1 =>
        let w2 : World :=
          { w1 with reader :=
              { w1.reader with offset_ := (w1.reader.offset_ + (next - current)) % SIZE_MOD } }
        WriteLoop chunk end_ handler fuel next w2
    else .ok () w

/-- Member `GenericWReader::Write(chunk, chunkSize, handler)` with `chunkSize` the
length of `chunk`. -/
def Write (chunk : List Char) (handler : Handler) (w : World) : Res Unit :=
  let end_ : Int := ((chunk.length : Nat) : Int) - 1
  WriteLoop chunk end_ handler (chunk.length + 1) 0 w

/-- A sequence of `Write` calls, each with its chunk and its handler; a fault
ends the run. -/
def WriteEach : List (List Char × Handler) → World → Res Unit
  | [], w => .ok () w
  | (chunk, handler) :: calls, w =>
    match Write chunk handler w with
    | .fault f w1 => .fault f w1
    | .ok _ w1 => WriteEach calls w1

/-- The chunks fed through `Write` in order, all to the same handler. -/
def WriteAll (handler : Handler) (chunks : List (List Char)) (w : World) : Res Unit :=
  WriteEach (chunks.map fun chunk => (chunk, handler)) w

/-- A reader as constructed (`parseResult_()`), with `state_` and `offset_` as
given: the constructor leaves them uninitialised. -/
def constructed (state : IterativeParsingState) (offset : Nat) : Reader :=
  { parseResult_ := { code_ := .kParseErrorNone, offset_ := 0 }, state_ := state, offset_ := offset }

/-- A freshly initialised reader: constructed, then `IterativeParseInit`; no
handler call has been made yet. -/
def fresh : World :=
  { reader := IterativeParseInit (constructed .IterativeParsingFinishState 0), trace := [] }

/-- The handler that accepts every event. -/
def acceptAll : Handler := fun _ _ => true

/-- The handler that rejects exactly the event `e` and accepts the others. -/
def rejectOnly (e : Event) : Handler := fun _ e1 => decide (e1 ≠ e)

/-- A property of worlds that each elementary step of the reader keeps: a
handler call, latching an error, and advancing `offset_`. -/
structure Preserved (P : World → Prop) : Prop where
  call : ∀ (handler : Handler) (e : Event) (w : World), P w → P (callHandler handler e w).2
  latch : ∀ (code : ParseErrorCode) (offset : Nat) (w : World),
    code ≠ .kParseErrorNone → P w → P (SetParseError code offset w)
  advance : ∀ (offset : Nat) (w : World),
    P w → P { w with reader := { w.reader with offset_ := offset } }

/-- The world reached from a fresh reader by `Write` of `[]` with a handler
that rejects `StartArray`: the termination error is latched at offset 1. -/
def latched : World :=
  { reader := { fresh.reader with parseResult_ := ⟨.kParseErrorTermination, 1⟩, offset_ := 3 },
    trace := [.StartArray, .EndArray 0] }

/-- The run did not end for lack of fuel, and a returned position is at least `lo`. -/
def Res.Sound (lo : Nat) : Res Nat → Prop
  | .ok q _ => lo ≤ q
  | .fault f _ => f ≠ .fuel

/-- The run did not end for lack of fuel. -/
def Res.Fuelled {α : Type} : Res α → Prop
  | .ok _ _ => True
  | .fault f _ => f ≠ .fuel

/-- The three literals that `ParseValue` dispatches to `ParseTrue`,
`ParseFalse` and `ParseNull`. -/
inductive Literal where
  | kTrue
  | kFalse
  | kNull
  deriving DecidableEq, Repr

/-- The bytes of a literal. -/
def Literal.text : Literal → List Char
  | .kTrue => ['t', 'r', 'u', 'e']
  | .kFalse => ['f', 'a', 'l', 's', 'e']
  | .kNull => ['n', 'u', 'l', 'l']

/-- The handler call that a literal stands for. -/
def Literal.event : Literal → Event
  | .kTrue => .Bool true
  | .kFalse => .Bool false
  | .kNull => .Null

/-- A run that returned left the parse result at `r0`. -/
def Res.Holds {α : Type} (r0 : ParseResult) : Res α → Prop
  | .ok _ w => w.reader.parseResult_ = r0
  | .fault _ _ => True

theorem early_return_eq (value : Nat) (w : World) (k : World → Res Nat) :
    PARSE_ERROR_EARLY_RETURN value w k = k w := by
  simp [PARSE_ERROR_EARLY_RETURN, HasParseError]

theorem error_at_eq (code : ParseErrorCode) (p start : Nat) (w : World) (k : World → Res Nat) :
    PARSE_ERROR_AT code p start w k
      = k (SetParseError code ((w.reader.offset_ + (p - start)) % SIZE_MOD) w) := by
  simp [PARSE_ERROR_AT, PARSE_ERROR_NORETURN, PARSE_ERROR_EARLY_RETURN, HasParseError]

section keeps

variable {P : World → Prop}

theorem skip_keeps (chunk : List Char) (end_ : Int) (start : Nat) (w : World)
    (k : Nat → Res Nat) (hw : P w) (hk : ∀ p, P (k p).world) (fuel p : Nat) :
    P (SKIP_WHITESPACE chunk end_ start w k fuel p).world := by
  induction fuel generalizing p with
  | zero => simpa [SKIP_WHITESPACE, Res.world] using hw
  | succ n ih =>
    unfold SKIP_WHITESPACE
    split
    · simpa [Res.world] using hw
    · split
      · split
        · simpa [Res.world] using hw
        · exact ih _
      · exact hk _

theorem skip_inc_keeps (chunk : List Char) (end_ : Int) (start : Nat) (w : World)
    (k : Nat → Res Nat) (hw : P w) (hk : ∀ p, P (k p).world) (fuel p : Nat) :
    P (SKIP_WHITESPACE_INC chunk end_ start w k fuel p).world := by
  induction fuel generalizing p with
  | zero => simpa [SKIP_WHITESPACE_INC, Res.world] using hw
  | succ n ih =>
    unfold SKIP_WHITESPACE_INC
    split
    · simpa [Res.world] using hw
    · split
      · split
        · simpa [Res.world] using hw
        · exact ih _
      · exact hk _

theorem literal_keeps (hP : Preserved P) (first : Char) (rest : List Char) (e : Event)
    (chunk : List Char) (end_ : Int) (handler : Handler) (start : Nat) (w : World) (hw : P w) :
    P (ParseLiteral first rest e chunk end_ handler start w).world := by
  unfold ParseLiteral
  simp only [error_at_eq]
  split
  · simpa [Res.world] using hw
  · split
    · simpa [Res.world] using hw
    · split
      · simpa [Res.world] using hw
      · split
        · simpa [Res.world] using hw
        · split
          · exact hP.latch _ _ _ (by decide) (hP.call _ _ _ hw)
          · exact hP.call _ _ _ hw
        · exact hP.latch _ _ _ (by decide) hw


theorem number_keeps (chunk : List Char) (start : Nat) (w : World) (hw : P w) :
    P (ParseNumber chunk start w).world := by
  unfold ParseNumber
  dsimp only
  split <;> simpa [Res.world] using hw

theorem plusOne_world (r : Res Nat) : (plusOne r).world = r.world := by
  cases r <;> rfl

theorem object_keeps (hP : Preserved P) (chunk : List Char) (end_ : Int) (handler : Handler)
    (start : Nat) (w : World) (hw : P w) :
    P (ParseObject chunk end_ handler start w).world := by
  have tail : ∀ w3 : World, P w3 → ∀ p : Nat,
      P (match readAt chunk p with
          | none => Res.fault Fault.outOfBounds w3
          | some c =>
            if c = '}' then
              if !(callHandler handler (.EndObject 0) w3).1 then
                Res.ok (p + 1) (SetParseError .kParseErrorTermination
                  (((callHandler handler (.EndObject 0) w3).2.reader.offset_ + (p - start)) % SIZE_MOD)
                  (callHandler handler (.EndObject 0) w3).2)
              else Res.ok (p + 1) (callHandler handler (.EndObject 0) w3).2
            else Res.ok (p + 1) w3).world := by
    intro w3 h3 p
    split
    · simpa [Res.world] using h3
    · split
      · split
        · exact hP.latch _ _ _ (by decide) (hP.call _ _ _ h3)
        · exact hP.call _ _ _ h3
      · simpa [Res.world] using h3
  unfold ParseObject
  simp only [error_at_eq, early_return_eq]
  split
  · simpa [Res.world] using hw
  · split
    · simpa [Res.world] using hw
    · split
      · simpa [Res.world] using hw
      · split
        · exact skip_keeps _ _ _ _ _ (hP.latch _ _ _ (by decide) (hP.call _ _ _ hw))
            (fun p => tail _ (hP.latch _ _ _ (by decide) (hP.call _ _ _ hw)) p) _ _
        · exact skip_keeps _ _ _ _ _ (hP.call _ _ _ hw)
            (fun p => tail _ (hP.call _ _ _ hw) p) _ _


theorem array_loop_keeps (hP : Preserved P) (parseValue : Nat → World → Res Nat)
    (hpv : ∀ p w, P w → P (parseValue p w).world)
    (chunk : List Char) (end_ : Int) (handler : Handler) (start : Nat)
    (fuel p elementCount : Nat) (w : World) (hw : P w) :
    P (ParseArrayLoop parseValue chunk end_ handler start fuel p elementCount w).world := by
  induction fuel generalizing p elementCount w with
  | zero => simpa [ParseArrayLoop, Res.world] using hw
  | succ n ih =>
    unfold ParseArrayLoop
    have h1 := hpv p w hw
    split
    · next f w1 heq => rw [heq] at h1; simpa [Res.world] using h1
    · next q w1 heq =>
      rw [heq] at h1
      have h1 : P w1 := by simpa [Res.world] using h1
      simp only [error_at_eq, early_return_eq]
      apply skip_keeps _ _ _ _ _ h1
      intro p2
      split
      · simpa [Res.world] using h1
      · split
        · apply skip_inc_keeps _ _ _ _ _ h1
          intro p3
          simpa [Res.world] using h1
        · split
          · split
            · exact hP.latch _ _ _ (by decide) (hP.call _ _ _ h1)
            · exact hP.call _ _ _ h1
          · exact ih _ _ _ (hP.latch _ _ _ (by decide) h1)

theorem array_keeps (hP : Preserved P) (parseValue : Nat → World → Res Nat)
    (hpv : ∀ p w, P w → P (parseValue p w).world)
    (chunk : List Char) (end_ : Int) (handler : Handler) (start : Nat) (w : World) (hw : P w) :
    P (ParseArray parseValue chunk end_ handler start w).world := by
  have tail : ∀ w3 : World, P w3 → ∀ p : Nat,
      P (match readAt chunk p with
          | none => Res.fault Fault.outOfBounds w3
          | some c =>
            if c = ']' then
              if !(callHandler handler (.EndArray 0) w3).1 then
                Res.ok (p + 1) (SetParseError .kParseErrorTermination
                  (((callHandler handler (.EndArray 0) w3).2.reader.offset_ + (p - start)) % SIZE_MOD)
                  (callHandler handler (.EndArray 0) w3).2)
              else Res.ok (p + 1) (callHandler handler (.EndArray 0) w3).2
            else ParseArrayLoop parseValue chunk end_ handler start (chunk.length + 1) p 0 w3).world := by
    intro w3 h3 p
    split
    · simpa [Res.world] using h3
    · split
      · split
        · exact hP.latch _ _ _ (by decide) (hP.call _ _ _ h3)
        · exact hP.call _ _ _ h3
      · exact array_loop_keeps hP parseValue hpv _ _ _ _ _ _ _ _ h3
  unfold ParseArray
  simp only [error_at_eq, early_return_eq]
  split
  · simpa [Res.world] using hw
  · split
    · simpa [Res.world] using hw
    · split
      · simpa [Res.world] using hw
      · split
        · exact skip_keeps _ _ _ _ _ (hP.latch _ _ _ (by decide) (hP.call _ _ _ hw))
            (fun p => tail _ (hP.latch _ _ _ (by decide) (hP.call _ _ _ hw)) p) _ _
        · exact skip_keeps _ _ _ _ _ (hP.call _ _ _ hw)
            (fun p => tail _ (hP.call _ _ _ hw) p) _ _

theorem value_keeps (hP : Preserved P) (chunk : List Char) (end_ : Int) (handler : Handler)
    (fuel p : Nat) (w : World) (hw : P w) :
    P (ParseValue chunk end_ handler fuel p w).world := by
  induction fuel generalizing p w with
  | zero => simpa [ParseValue, Res.world] using hw
  | succ n ih =>
    unfold ParseValue
    split
    · simpa [Res.world] using hw
    · simp only [plusOne_world, apply_ite Res.world]
      split
      · exact object_keeps hP _ _ _ _ _ hw
      · split
        · exact array_keeps hP _ (fun p w hw => ih p w hw) _ _ _ _ _ hw
        · split
          · exact literal_keeps hP _ _ _ _ _ _ _ _ hw
          · split
            · exact literal_keeps hP _ _ _ _ _ _ _ _ hw
            · split
              · exact literal_keeps hP _ _ _ _ _ _ _ _ hw
              · exact number_keeps _ _ _ hw

theorem next_keeps (hP : Preserved P) (chunk : List Char) (end_ : Int) (handler : Handler)
    (p : Nat) (w : World) (hw : P w) :
    P (ProcessNext chunk end_ handler p w).world := by
  unfold ProcessNext
  split
  · simpa [Res.world] using hw
  · split
    · simpa [Res.world] using hw
    · exact value_keeps hP _ _ _ _ _ _ hw

theorem write_loop_keeps (hP : Preserved P) (chunk : List Char) (end_ : Int) (handler : Handler)
    (fuel next : Nat) (w : World) (hw : P w) :
    P (WriteLoop chunk end_ handler fuel next w).world := by
  induction fuel generalizing next w with
  | zero => simpa [WriteLoop, Res.world] using hw
  | succ n ih =>
    unfold WriteLoop
    split
    · have h1 := next_keeps hP chunk end_ handler next w hw
      dsimp only
      split
      · next f w1 heq => rw [heq] at h1; simpa [Res.world] using h1
      · next q w1 heq =>
        rw [heq] at h1
        exact ih _ _ (hP.advance _ _ (by simpa [Res.world] using h1))
    · simpa [Res.world] using hw

theorem write_keeps (hP : Preserved P) (chunk : List Char) (handler : Handler)
    (w : World) (hw : P w) : P (Write chunk handler w).world :=
  write_loop_keeps hP _ _ _ _ _ _ hw

theorem write_each_keeps (hP : Preserved P) (calls : List (List Char × Handler))
    (w : World) (hw : P w) : P (WriteEach calls w).world := by
  induction calls generalizing w with
  | nil => simpa [WriteEach, Res.world] using hw
  | cons c cs ih =>
    obtain ⟨chunk, handler⟩ := c
    unfold WriteEach
    have h1 := write_keeps hP chunk handler w hw
    split
    · next f w1 heq => rw [heq] at h1; simpa [Res.world] using h1
    · next u w1 heq =>
      rw [heq] at h1
      exact ih _ (by simpa [Res.world] using h1)

end keeps

/-! ## Progress, and the fuel is never used up -/

theorem readAt_lt {chunk : List Char} {p : Nat} {c : Char} (h : readAt chunk p = some c) :
    p < chunk.length := by
  unfold readAt at h
  by_contra hge
  rw [List.get?_eq_none.mpr (by omega)] at h
  cases h

theorem sound_mono {lo lo1 : Nat} {r : Res Nat} (hle : lo1 ≤ lo) (h : r.Sound lo) : r.Sound lo1 := by
  cases r with
  | ok q w => exact Nat.le_trans hle h
  | fault f w => exact h

theorem plusOne_sound {lo : Nat} {r : Res Nat} (h : r.Sound lo) : (plusOne r).Sound (lo + 1) := by
  cases r with
  | ok q w => exact Nat.succ_le_succ h
  | fault f w => exact h

theorem skip_sound (chunk : List Char) (end_ : Int) (start lo : Nat) (w : World)
    (k : Nat → Res Nat) (hlo : lo ≤ start) (fuel p : Nat)
    (hfuel : 1 ≤ fuel) (hroom : chunk.length + 1 ≤ fuel + p)
    (hk : ∀ q, p ≤ q → q < chunk.length → (k q).Sound lo) :
    (SKIP_WHITESPACE chunk end_ start w k fuel p).Sound lo := by
  induction fuel generalizing p with
  | zero => omega
  | succ n ih =>
    unfold SKIP_WHITESPACE
    split
    · simp [Res.Sound]
    · next c hc =>
      have hp := readAt_lt hc
      split
      · split
        · simpa [Res.Sound, SignalIncomplete] using hlo
        · exact ih (p + 1) (by omega) (by omega) (fun q hq hql => hk q (by omega) hql)
      · exact hk p (Nat.le_refl p) hp

theorem skip_inc_sound (chunk : List Char) (end_ : Int) (start lo : Nat) (w : World)
    (k : Nat → Res Nat) (hlo : lo ≤ start) (fuel p : Nat)
    (hfuel : 1 ≤ fuel) (hroom : chunk.length + 1 ≤ fuel + p)
    (hk : ∀ q, p < q → q < chunk.length → (k q).Sound lo) :
    (SKIP_WHITESPACE_INC chunk end_ start w k fuel p).Sound lo := by
  induction fuel generalizing p with
  | zero => omega
  | succ n ih =>
    unfold SKIP_WHITESPACE_INC
    split
    · simp [Res.Sound]
    · next c hc =>
      have hp := readAt_lt hc
      split
      · split
        · simpa [Res.Sound, SignalIncomplete] using hlo
        · exact ih (p + 1 + 2) (by omega) (by omega) (fun q hq hql => hk q (by omega) hql)
      · exact hk (p + 1) (Nat.lt_succ_self p) hp

theorem literal_sound (first : Char) (rest : List Char) (e : Event)
    (chunk : List Char) (end_ : Int) (handler : Handler) (start : Nat) (w : World) :
    (ParseLiteral first rest e chunk end_ handler start w).Sound start := by
  unfold ParseLiteral
  simp only [error_at_eq]
  split
  · simp [Res.Sound]
  · split
    · simp [Res.Sound]
    · split
      · simp [Res.Sound, SignalIncomplete]
      · split
        · simp [Res.Sound]
        · split <;> simp [Res.Sound]
        · simp [Res.Sound]

theorem number_sound (chunk : List Char) (start : Nat) (w : World) :
    (ParseNumber chunk start w).Sound (start + 1) := by
  unfold ParseNumber consume
  dsimp only
  cases readAt chunk start with
  | none => simp [Res.Sound]
  | some c =>
    by_cases hc : c = '-'
    · simp [hc, Res.Sound]
    · simp [hc, Res.Sound]

theorem object_sound (chunk : List Char) (end_ : Int) (handler : Handler) (start : Nat)
    (w : World) : (ParseObject chunk end_ handler start w).Sound start := by
  have tail : ∀ (w3 : World) (q : Nat), start + 1 ≤ q →
      (match readAt chunk q with
        | none => Res.fault Fault.outOfBounds w3
        | some c =>
          if c = '}' then
            if !(callHandler handler (.EndObject 0) w3).1 then
              Res.ok (q + 1) (SetParseError .kParseErrorTermination
                (((callHandler handler (.EndObject 0) w3).2.reader.offset_ + (q - start)) % SIZE_MOD)
                (callHandler handler (.EndObject 0) w3).2)
            else Res.ok (q + 1) (callHandler handler (.EndObject 0) w3).2
          else Res.ok (q + 1) w3).Sound start := by
    intro w3 q hq
    split
    · simp [Res.Sound]
    · split
      · split <;> (simp only [Res.Sound]; omega)
      · simp only [Res.Sound]; omega
  unfold ParseObject
  simp only [error_at_eq, early_return_eq]
  split
  · simp [Res.Sound]
  · split
    · simp [Res.Sound]
    · split
      · simp [Res.Sound, SignalIncomplete]
      · split
        · exact skip_sound _ _ _ _ _ _ (Nat.le_refl _) _ _ (by omega) (by omega)
            (fun q hq _ => tail _ q hq)
        · exact skip_sound _ _ _ _ _ _ (Nat.le_refl _) _ _ (by omega) (by omega)
            (fun q hq _ => tail _ q hq)

theorem array_loop_sound (parseValue : Nat → World → Res Nat) (chunk : List Char) (end_ : Int)
    (handler : Handler) (start : Nat)
    (hpv : ∀ p w, start + 1 ≤ p → (parseValue p w).Sound (p + 1))
    (fuel p elementCount : Nat) (w : World)
    (hfuel : 1 ≤ fuel) (hroom : chunk.length + 1 ≤ fuel + p) (hp : start + 1 ≤ p) :
    (ParseArrayLoop parseValue chunk end_ handler start fuel p elementCount w).Sound start := by
  induction fuel generalizing p elementCount w with
  | zero => omega
  | succ n ih =>
    unfold ParseArrayLoop
    have h1 := hpv p w hp
    split
    · next f w1 heq => rw [heq] at h1; exact h1
    · next q w1 heq =>
      rw [heq] at h1
      have hq : p + 1 ≤ q := h1
      simp only [error_at_eq, early_return_eq]
      apply skip_sound _ _ _ _ _ _ (Nat.le_refl _) _ _ (by omega) (by omega)
      intro q2 hq2 hlt
      split
      · simp [Res.Sound]
      · split
        · apply skip_inc_sound _ _ _ _ _ _ (Nat.le_refl _) _ _ (by omega) (by omega)
          intro q3 hq3 _
          simp only [Res.Sound]
          omega
        · split
          · split <;> (simp only [Res.Sound]; omega)
          · exact ih _ _ _ (by omega) (by omega) (by omega)

theorem array_sound (parseValue : Nat → World → Res Nat) (chunk : List Char) (end_ : Int)
    (handler : Handler) (start : Nat)
    (hpv : ∀ p w, start + 1 ≤ p → (parseValue p w).Sound (p + 1)) (w : World) :
    (ParseArray parseValue chunk end_ handler start w).Sound start := by
  have tail : ∀ (w3 : World) (q : Nat), start + 1 ≤ q →
      (match readAt chunk q with
        | none => Res.fault Fault.outOfBounds w3
        | some c =>
          if c = ']' then
            if !(callHandler handler (.EndArray 0) w3).1 then
              Res.ok (q + 1) (SetParseError .kParseErrorTermination
                (((callHandler handler (.EndArray 0) w3).2.reader.offset_ + (q - start)) % SIZE_MOD)
                (callHandler handler (.EndArray 0) w3).2)
            else Res.ok (q + 1) (callHandler handler (.EndArray 0) w3).2
          else ParseArrayLoop parseValue chunk end_ handler start (chunk.length + 1) q 0 w3).Sound
        start := by
    intro w3 q hq
    split
    · simp [Res.Sound]
    · split
      · split <;> (simp only [Res.Sound]; omega)
      · exact array_loop_sound _ _ _ _ _ hpv _ _ _ _ (by omega) (by omega) hq
  unfold ParseArray
  simp only [error_at_eq, early_return_eq]
  split
  · simp [Res.Sound]
  · split
    · simp [Res.Sound]
    · split
      · simp [Res.Sound, SignalIncomplete]
      · split
        · exact skip_sound _ _ _ _ _ _ (Nat.le_refl _) _ _ (by omega) (by omega)
            (fun q hq _ => tail _ q hq)
        · exact skip_sound _ _ _ _ _ _ (Nat.le_refl _) _ _ (by omega) (by omega)
            (fun q hq _ => tail _ q hq)

theorem value_sound (chunk : List Char) (end_ : Int) (handler : Handler)
    (fuel p : Nat) (w : World) (hfuel : 1 ≤ fuel) (hroom : chunk.length + 1 ≤ fuel + p) :
    (ParseValue chunk end_ handler fuel p w).Sound (p + 1) := by
  induction fuel generalizing p w with
  | zero => omega
  | succ n ih =>
    unfold ParseValue
    split
    · simp [Res.Sound]
    · next c hc =>
      have hp := readAt_lt hc
      split
      · exact plusOne_sound (object_sound _ _ _ _ _)
      · split
        · exact plusOne_sound (array_sound _ _ _ _ _
            (fun q w1 hq => ih q w1 (by omega) (by omega)) _)
        · split
          · exact plusOne_sound (literal_sound _ _ _ _ _ _ _ _)
          · split
            · exact plusOne_sound (literal_sound _ _ _ _ _ _ _ _)
            · split
              · exact plusOne_sound (literal_sound _ _ _ _ _ _ _ _)
              · exact sound_mono (by omega) (plusOne_sound (number_sound _ _ _))

theorem next_sound (chunk : List Char) (end_ : Int) (handler : Handler) (p : Nat) (w : World) :
    (ProcessNext chunk end_ handler p w).Sound (p + 1) := by
  unfold ProcessNext
  split
  · simp [Res.Sound]
  · split
    · simp [Res.Sound]
    · exact value_sound _ _ _ _ _ _ (by omega) (by omega)

theorem next_ok_lt {chunk : List Char} {end_ : Int} {handler : Handler} {p q : Nat}
    {w w1 : World} (h : ProcessNext chunk end_ handler p w = .ok q w1) :
    p < chunk.length ∧ p + 1 ≤ q := by
  have hs := next_sound chunk end_ handler p w
  rw [h] at hs
  refine ⟨?_, hs⟩
  unfold ProcessNext at h
  split at h
  · cases h
  · next c hc => exact readAt_lt hc

theorem write_loop_fuelled (chunk : List Char) (end_ : Int) (handler : Handler)
    (fuel next : Nat) (w : World) (hfuel : 1 ≤ fuel) (hroom : chunk.length + 1 ≤ fuel + next) :
    (WriteLoop chunk end_ handler fuel next w).Fuelled := by
  induction fuel generalizing next w with
  | zero => omega
  | succ n ih =>
    unfold WriteLoop
    split
    · have hs := next_sound chunk end_ handler next w
      dsimp only
      split
      · next f w1 heq => rw [heq] at hs; exact hs
      · next q w1 heq =>
        obtain ⟨hlt, hq⟩ := next_ok_lt heq
        exact ih _ _ (by omega) (by omega)
    · trivial

/-- The fuel that `Write` supplies is never used up: whatever the chunk, the
handler and the state, `Write` does not end in `Fault.fuel`. -/
theorem write_fuelled (chunk : List Char) (handler : Handler) (w : World) :
    (Write chunk handler w).Fuelled :=
  write_loop_fuelled _ _ _ _ _ _ (by omega) (by omega)

theorem write_each_fuelled (calls : List (List Char × Handler)) (w : World) :
    (WriteEach calls w).Fuelled := by
  induction calls generalizing w with
  | nil => trivial
  | cons c cs ih =>
    obtain ⟨chunk, handler⟩ := c
    unfold WriteEach
    have h1 := write_fuelled chunk handler w
    split
    · next f w1 heq => rw [heq] at h1; exact h1
    · exact ih _

/-! ## Whitespace runs, empty containers and literals -/

theorem readAt_mem {chunk : List Char} {p : Nat} {c : Char} (h : readAt chunk p = some c) :
    c ∈ chunk := by
  unfold readAt at h
  exact List.get?_mem h

theorem readAt_some_of_lt {chunk : List Char} {p : Nat} (h : p < chunk.length) :
    ∃ c, readAt chunk p = some c := by
  unfold readAt
  exact ⟨chunk.get ⟨p, h⟩, List.get?_eq_get h⟩

theorem next_whitespace (chunk : List Char) (end_ : Int) (handler : Handler) (p : Nat)
    (w : World) (hws : ∀ c ∈ chunk, IsWhiteSpace c = true) (hp : p < chunk.length) :
    ProcessNext chunk end_ handler p w = .ok (p + 1) w := by
  obtain ⟨c, hc⟩ := readAt_some_of_lt hp
  unfold ProcessNext
  rw [hc]
  simp [hws c (readAt_mem hc)]

theorem write_loop_whitespace (chunk : List Char) (handler : Handler)
    (hws : ∀ c ∈ chunk, IsWhiteSpace c = true) (fuel next : Nat) (w : World)
    (hnext : next ≤ chunk.length) (hfuel : chunk.length - next + 1 ≤ fuel)
    (hoff : w.reader.offset_ < SIZE_MOD) :
    WriteLoop chunk ((chunk.length : Int) - 1) handler fuel next w
      = .ok () { reader := { w.reader with
                               offset_ := (w.reader.offset_ + (chunk.length - next)) % SIZE_MOD },
                 trace := w.trace } := by
  induction fuel generalizing next w with
  | zero => omega
  | succ n ih =>
    unfold WriteLoop
    by_cases hlt : next < chunk.length
    · have hcond : (next : Int) ≤ (chunk.length : Int) - 1 := by omega
      rw [if_pos hcond]
      simp only [next_whitespace chunk _ handler next w hws hlt]
      rw [ih (next + 1) _ (by omega) (by omega) (Nat.mod_lt _ (by decide))]
      simp only [Nat.add_sub_cancel_left, Nat.mod_add_mod]
      have : w.reader.offset_ + 1 + (chunk.length - (next + 1))
          = w.reader.offset_ + (chunk.length - next) := by omega
      rw [this]
    · have hcond : ¬ (next : Int) ≤ (chunk.length : Int) - 1 := by omega
      rw [if_neg hcond]
      have hz : chunk.length - next = 0 := by omega
      rw [hz, Nat.add_zero, Nat.mod_eq_of_lt hoff]

theorem skip_run (chunk : List Char) (end_ : Int) (start : Nat) (w : World) (k : Nat → Res Nat)
    (q : Nat) (c : Char) (hq : readAt chunk q = some c) (hc : IsWhiteSpace c = false)
    (hend : (q : Int) ≤ end_) (fuel p : Nat) (hp : p ≤ q) (hfuel : q - p + 1 ≤ fuel)
    (hrun : ∀ i, p ≤ i → i < q → ∃ x, readAt chunk i = some x ∧ IsWhiteSpace x = true) :
    SKIP_WHITESPACE chunk end_ start w k fuel p = k q := by
  induction fuel generalizing p with
  | zero => omega
  | succ n ih =>
    unfold SKIP_WHITESPACE
    by_cases hlt : p < q
    · obtain ⟨x, hx, hxw⟩ := hrun p (Nat.le_refl p) hlt
      have hcond : ¬ (((p + 1 : Nat) : Int) > end_) := by omega
      simp only [hx, hxw, if_true, if_neg hcond]
      exact ih (p + 1) (by omega) (by omega) (fun i hi hiq => hrun i (by omega) hiq)
    · have hpq : p = q := by omega
      subst hpq
      simp [hq, hc]

theorem readAt_cons_run (first last : Char) (ws : List Char)
    (hws : ∀ c ∈ ws, IsWhiteSpace c = true) :
    readAt (first :: (ws ++ [last])) 0 = some first
      ∧ readAt (first :: (ws ++ [last])) (ws.length + 1) = some last
      ∧ ∀ i, 1 ≤ i → i < ws.length + 1 →
          ∃ x, readAt (first :: (ws ++ [last])) i = some x ∧ IsWhiteSpace x = true := by
  refine ⟨rfl, ?_, ?_⟩
  · simp [readAt]
  · intro i h1 h2
    obtain ⟨j, rfl⟩ : ∃ j, i = j + 1 := ⟨i - 1, by omega⟩
    have hj : j < ws.length := by omega
    refine ⟨ws.get ⟨j, hj⟩, ?_, hws _ (List.get_mem _ _ _)⟩
    simp [readAt, List.getElem?_append_left hj, List.getElem?_eq_getElem hj]

theorem next_empty_array (chunk : List Char) (n : Nat) (handler : Handler) (w : World)
    (hacc : ∀ t e, handler t e = true)
    (hlen : chunk.length = n + 2)
    (h0 : readAt chunk 0 = some '[') (hlast : readAt chunk (n + 1) = some ']')
    (hrun : ∀ i, 1 ≤ i → i < n + 1 → ∃ x, readAt chunk i = some x ∧ IsWhiteSpace x = true) :
    ProcessNext chunk ((chunk.length : Int) - 1) handler 0 w
      = .ok (n + 3) { reader := w.reader, trace := w.trace ++ [.StartArray, .EndArray 0] } := by
  have hend : ¬ (((0 + 1 : Nat) : Int) > (chunk.length : Int) - 1) := by omega
  unfold ProcessNext
  rw [h0]
  simp only [show IsWhiteSpace '[' = false by decide, Bool.false_eq_true, if_false, hlen]
  unfold ParseValue
  rw [h0]
  simp only [show ¬ ('[' = '\x7b') by decide, if_false, if_true]
  unfold ParseArray
  simp only [h0, ne_eq, not_true_eq_false, if_false, hend, early_return_eq, error_at_eq,
    callHandler, hacc, Bool.not_true, Bool.false_eq_true]
  rw [skip_run chunk _ 0 _ _ (n + 1) ']' hlast (by decide) (by omega) _ 1 (by omega) (by omega)
    hrun]
  have hend2 : ¬ ((n : Int) + 2 - 1 < 1) := by omega
  simp [hlast, plusOne, hend2]

theorem next_empty_object (chunk : List Char) (n : Nat) (handler : Handler) (w : World)
    (hacc : ∀ t e, handler t e = true)
    (hlen : chunk.length = n + 2)
    (h0 : readAt chunk 0 = some '\x7b') (hlast : readAt chunk (n + 1) = some '\x7d')
    (hrun : ∀ i, 1 ≤ i → i < n + 1 → ∃ x, readAt chunk i = some x ∧ IsWhiteSpace x = true) :
    ProcessNext chunk ((chunk.length : Int) - 1) handler 0 w
      = .ok (n + 3) { reader := w.reader, trace := w.trace ++ [.StartObject, .EndObject 0] } := by
  have hend : ¬ (((0 + 1 : Nat) : Int) > (chunk.length : Int) - 1) := by omega
  unfold ProcessNext
  rw [h0]
  simp only [show IsWhiteSpace '\x7b' = false by decide, Bool.false_eq_true, if_false, hlen]
  unfold ParseValue
  rw [h0]
  simp only [if_true]
  unfold ParseObject
  simp only [h0, ne_eq, not_true_eq_false, if_false, hend, early_return_eq, error_at_eq,
    callHandler, hacc, Bool.not_true, Bool.false_eq_true]
  rw [skip_run chunk _ 0 _ _ (n + 1) '\x7d' hlast (by decide) (by omega) _ 1 (by omega) (by omega)
    hrun]
  have hend2 : ¬ ((n : Int) + 2 - 1 < 1) := by omega
  simp [hlast, plusOne, hend2]

theorem write_loop_stop (chunk : List Char) (end_ : Int) (handler : Handler) (fuel next : Nat)
    (w : World) (hfuel : 0 < fuel) (hnext : ¬ (next : Int) ≤ end_) :
    WriteLoop chunk end_ handler fuel next w = .ok () w := by
  cases fuel with
  | zero => omega
  | succ n =>
    unfold WriteLoop
    rw [if_neg hnext]

theorem write_single_value (chunk : List Char) (handler : Handler) (w w1 : World) (q : Nat)
    (hne : 0 < chunk.length) (hq : chunk.length ≤ q)
    (hnext : ProcessNext chunk ((chunk.length : Int) - 1) handler 0 w = .ok q w1) :
    Write chunk handler w
      = .ok () { w1 with reader :=
                   { w1.reader with offset_ := (w1.reader.offset_ + q) % SIZE_MOD } } := by
  have h1 : ((0 : Nat) : Int) ≤ (chunk.length : Int) - 1 := by omega
  unfold Write
  unfold WriteLoop
  rw [if_pos h1]
  simp only [hnext, Nat.sub_zero]
  exact write_loop_stop _ _ _ _ _ _ hne (by omega)

theorem drop_eq_cons_of_readAt {chunk : List Char} {p : Nat} {c : Char}
    (h : readAt chunk p = some c) : chunk.drop p = c :: chunk.drop (p + 1) := by
  have hlt := readAt_lt h
  unfold readAt at h
  rw [List.get?_eq_get hlt] at h
  cases h
  exact List.drop_eq_getElem_cons hlt

theorem drop_eq_nil_of_readAt {chunk : List Char} {p : Nat}
    (h : readAt chunk p = none) : chunk.drop p = [] := by
  unfold readAt at h
  exact List.drop_eq_nil_of_le (List.get?_eq_none.mp h)

theorem matchBytes_true_iff (chunk : List Char) (cs : List Char) (p : Nat) :
    matchBytes chunk p cs = some true ↔ (chunk.drop p).take cs.length = cs := by
  induction cs generalizing p with
  | nil => simp [matchBytes]
  | cons c cs ih =>
    unfold matchBytes
    cases hr : readAt chunk p with
    | none => simp [drop_eq_nil_of_readAt hr]
    | some x =>
      rw [drop_eq_cons_of_readAt hr]
      by_cases hx : x = c
      · simp [hx, ih]
      · simp [hx]

theorem matchBytes_ne_none (chunk : List Char) (cs : List Char) (p : Nat)
    (h : p + cs.length ≤ chunk.length) : matchBytes chunk p cs ≠ none := by
  induction cs generalizing p with
  | nil => simp [matchBytes]
  | cons c cs ih =>
    unfold matchBytes
    have hp : p < chunk.length := by simp at h; omega
    obtain ⟨x, hx⟩ := readAt_some_of_lt hp
    rw [hx]
    by_cases hxc : x = c
    · simp only [hxc, if_true]
      exact ih (p + 1) (by simp at h; omega)
    · simp [hxc]

theorem literal_run (first : Char) (rest : List Char) (e : Event) (chunk : List Char)
    (handler : Handler) (start : Nat) (w : World)
    (hfirst : readAt chunk start = some first) (hacc : ∀ t e, handler t e = true) :
    ((plusOne (ParseLiteral first rest e chunk ((chunk.length : Int) - 1) handler start w)).world.trace
          = w.trace ++ [e]
        ↔ ((chunk.drop start).take (first :: rest).length = first :: rest
            ∧ start + (first :: rest).length ≤ chunk.length - 1))
      ∧ ((plusOne (ParseLiteral first rest e chunk ((chunk.length : Int) - 1) handler start
              w)).world.trace = w.trace ++ [e]
          → plusOne (ParseLiteral first rest e chunk ((chunk.length : Int) - 1) handler start w)
            = .ok (start + (first :: rest).length + 1)
                { reader := w.reader, trace := w.trace ++ [e] }) := by
  have hlt := readAt_lt hfirst
  have hdrop := drop_eq_cons_of_readAt hfirst
  have hspell : (chunk.drop start).take (first :: rest).length = first :: rest
      ↔ matchBytes chunk (start + 1) rest = some true := by
    rw [matchBytes_true_iff, hdrop]
    simp
  unfold ParseLiteral
  simp only [hfirst, ne_eq, not_true_eq_false, if_false, error_at_eq, callHandler, hacc,
    Bool.not_true, Bool.false_eq_true, SignalIncomplete, List.length_cons]
  by_cases hend : ((start + (rest.length + 1) : Nat) : Int) > (chunk.length : Int) - 1
  · rw [if_pos hend]
    have hno : ¬ (start + (rest.length + 1) ≤ chunk.length - 1) := by omega
    simp [plusOne, Res.world, hno]
  · rw [if_neg hend]
    have hyes : start + (rest.length + 1) ≤ chunk.length - 1 := by omega
    have hsome := matchBytes_ne_none chunk rest (start + 1) (by omega)
    cases hm : matchBytes chunk (start + 1) rest with
    | none => exact absurd hm hsome
    | some b =>
      cases b with
      | true =>
        simp only [List.length_cons] at hspell
        simp [plusOne, Res.world, hyes, hspell, hm, Nat.add_assoc]
      | false =>
        simp only [List.length_cons] at hspell
        simp [plusOne, Res.world, SetParseError, hspell, hm]

/-! ## What `Write` does to the latched result -/

theorem write_keeps_error (chunk : List Char) (handler : Handler) (w : World)
    (herr : w.reader.parseResult_.IsError = true) :
    (Write chunk handler w).world.reader.parseResult_.IsError = true := by
  refine write_keeps (P := fun w => w.reader.parseResult_.IsError = true) ?_ chunk handler w herr
  refine ⟨fun _ _ _ h => h, ?_, fun _ _ h => h⟩
  intro code offset w1 hcode _
  simp [SetParseError, ParseResult.Set, ParseResult.IsError, hcode]

theorem plusOne_holds {r0 : ParseResult} {r : Res Nat} (h : r.Holds r0) :
    (plusOne r).Holds r0 := by
  cases r with
  | ok q w => exact h
  | fault f w => trivial

theorem skip_holds (r0 : ParseResult) (chunk : List Char) (end_ : Int) (start : Nat) (w : World)
    (k : Nat → Res Nat) (hw : w.reader.parseResult_ = r0) (hk : ∀ p, (k p).Holds r0)
    (fuel p : Nat) : (SKIP_WHITESPACE chunk end_ start w k fuel p).Holds r0 := by
  induction fuel generalizing p with
  | zero => simp [SKIP_WHITESPACE, Res.Holds]
  | succ n ih =>
    unfold SKIP_WHITESPACE
    split
    · trivial
    · split
      · split
        · exact hw
        · exact ih _
      · exact hk _

theorem literal_holds (r0 : ParseResult) (first : Char) (rest : List Char) (e : Event)
    (chunk : List Char) (end_ : Int) (handler : Handler) (start : Nat) (w : World)
    (hacc : ∀ t e, handler t e = true) (hw : w.reader.parseResult_ = r0) :
    (ParseLiteral first rest e chunk end_ handler start w).Holds r0 := by
  unfold ParseLiteral
  simp only [error_at_eq, callHandler, hacc, Bool.not_true, Bool.false_eq_true, if_false]
  split
  · trivial
  · split
    · trivial
    · split
      · exact hw
      · split
        · trivial
        · exact hw
        · trivial

theorem number_holds (r0 : ParseResult) (chunk : List Char) (start : Nat) (w : World)
    (hw : w.reader.parseResult_ = r0) : (ParseNumber chunk start w).Holds r0 := by
  unfold ParseNumber
  dsimp only
  split
  · trivial
  · exact hw

theorem object_holds (r0 : ParseResult) (chunk : List Char) (end_ : Int) (handler : Handler)
    (start : Nat) (w : World) (hacc : ∀ t e, handler t e = true)
    (hw : w.reader.parseResult_ = r0) :
    (ParseObject chunk end_ handler start w).Holds r0 := by
  unfold ParseObject
  simp only [error_at_eq, early_return_eq, callHandler, hacc, Bool.not_true, Bool.false_eq_true,
    if_false]
  split
  · trivial
  · split
    · trivial
    · split
      · exact hw
      · refine skip_holds r0 _ _ _ _ _ ?_ ?_ _ _
        · exact hw
        · intro p
          split
          · trivial
          · split
            · exact hw
            · exact hw

theorem value_holds (r0 : ParseResult) (chunk : List Char) (end_ : Int) (handler : Handler)
    (fuel p : Nat) (w : World) (hno : '[' ∉ chunk) (hacc : ∀ t e, handler t e = true)
    (hw : w.reader.parseResult_ = r0) :
    (ParseValue chunk end_ handler fuel p w).Holds r0 := by
  cases fuel with
  | zero => simp [ParseValue, Res.Holds]
  | succ n =>
    unfold ParseValue
    split
    · trivial
    · next c hc =>
      have hne : c ≠ '[' := fun h => hno (h ▸ readAt_mem hc)
      simp only [hne, if_false]
      split
      · exact plusOne_holds (object_holds r0 _ _ _ _ _ hacc hw)
      · split
        · exact plusOne_holds (literal_holds r0 _ _ _ _ _ _ _ _ hacc hw)
        · split
          · exact plusOne_holds (literal_holds r0 _ _ _ _ _ _ _ _ hacc hw)
          · split
            · exact plusOne_holds (literal_holds r0 _ _ _ _ _ _ _ _ hacc hw)
            · exact plusOne_holds (number_holds r0 _ _ _ hw)

theorem next_holds (r0 : ParseResult) (chunk : List Char) (end_ : Int) (handler : Handler)
    (p : Nat) (w : World) (hno : '[' ∉ chunk) (hacc : ∀ t e, handler t e = true)
    (hw : w.reader.parseResult_ = r0) :
    (ProcessNext chunk end_ handler p w).Holds r0 := by
  unfold ProcessNext
  split
  · trivial
  · split
    · exact hw
    · exact value_holds r0 _ _ _ _ _ _ hno hacc hw

theorem write_loop_holds (r0 : ParseResult) (chunk : List Char) (end_ : Int) (handler : Handler)
    (fuel next : Nat) (w : World) (hno : '[' ∉ chunk) (hacc : ∀ t e, handler t e = true)
    (hw : w.reader.parseResult_ = r0) :
    (WriteLoop chunk end_ handler fuel next w).Holds r0 := by
  induction fuel generalizing next w with
  | zero => simp [WriteLoop, Res.Holds]
  | succ n ih =>
    unfold WriteLoop
    split
    · have h1 := next_holds r0 chunk end_ handler next w hno hacc hw
      dsimp only
      split
      · trivial
      · next q w1 heq =>
        rw [heq] at h1
        exact ih _ _ h1
    · exact hw

theorem write_holds (r0 : ParseResult) (chunk : List Char) (handler : Handler) (w : World)
    (hno : '[' ∉ chunk) (hacc : ∀ t e, handler t e = true) (hw : w.reader.parseResult_ = r0) :
    (Write chunk handler w).Holds r0 :=
  write_loop_holds r0 _ _ _ _ _ _ hno hacc hw

theorem write_each_holds (r0 : ParseResult) (calls : List (List Char × Handler)) (w : World)
    (hcalls : ∀ c ∈ calls, '[' ∉ c.1 ∧ ∀ t e, c.2 t e = true)
    (hw : w.reader.parseResult_ = r0) : (WriteEach calls w).Holds r0 := by
  induction calls generalizing w with
  | nil => exact hw
  | cons c cs ih =>
    obtain ⟨chunk, handler⟩ := c
    have hc := hcalls (chunk, handler) (List.mem_cons_self _ _)
    have h1 := write_holds r0 chunk handler w hc.1 hc.2 hw
    unfold WriteEach
    split
    · trivial
    · next u w1 heq =>
      rw [heq] at h1
      exact ih _ (fun c hcm => hcalls c (List.mem_cons_of_mem _ hcm)) h1

/-! ## The claims -/

/-- C1 (chunk-boundary invariance), on the code: the document `[]` fed as one
chunk gives `StartArray`, `EndArray(0)`, but fed as the chunks `[` and `]` it
gives no event at all; and `true` gives no event, neither whole nor fed as
`tr` then `ue`, so no `Bool(true)` is seen either way. -/
theorem C1_split_changes_the_events :
    WriteAll acceptAll ["[]".toList] fresh
        = .ok () { reader := { fresh.reader with offset_ := 3 },
                   trace := [.StartArray, .EndArray 0] }
      ∧ WriteAll acceptAll ["[".toList, "]".toList] fresh
        = .ok () { reader := { fresh.reader with offset_ := 3 }, trace := [] }
      ∧ (WriteAll acceptAll ["true".toList] fresh).world.trace = []
      ∧ (WriteAll acceptAll ["tr".toList, "ue".toList] fresh).world.trace = [] := by
  decide

/-- C2 (round trip on literals), on the code: `Write` of the whole chunk
`true`, `false` or `null` on a fresh reader returns without any handler call
(and with `offset_` past the chunk), and `IterativeParseFinish` then reports
no error. -/
theorem C2_whole_literal_gives_no_event :
    Write "true".toList acceptAll fresh
        = .ok () { reader := { fresh.reader with offset_ := 5 }, trace := [] }
      ∧ Write "false".toList acceptAll fresh
        = .ok () { reader := { fresh.reader with offset_ := 5 }, trace := [] }
      ∧ Write "null".toList acceptAll fresh
        = .ok () { reader := { fresh.reader with offset_ := 5 }, trace := [] }
      ∧ (IterativeParseFinish (Write "true".toList acceptAll fresh).world.reader).IsError
        = false := by
  decide

/-- C3 (nested structure with counts), on the code: `Write` of `[1,[2,3],4]`
calls `StartArray` twice, latches a missing-comma error at offset 3 and then
reads the byte after the end of the chunk; no `Number` and no `EndArray` call
is made. -/
theorem C3_nested_array_reads_past_the_chunk :
    Write "[1,[2,3],4]".toList acceptAll fresh
      = .fault .outOfBounds
          { reader := { fresh.reader with
                          parseResult_ := ⟨.kParseErrorArrayMissCommaOrSquareBracket, 3⟩ },
            trace := [.StartArray, .StartArray] } := by
  decide

/-- C4 (handler rejection aborts the parse), on the code: after `StartArray`
was rejected on `[]` the handler still receives `EndArray(0)`; on
`[true,true ]` the calls go on after the rejection and `IterativeParseFinish`
returns the missing-comma error, not the termination error; and on `[1,2]`
with a handler rejecting `Number` no `Number` call is made at all: the run
ends reading past the chunk with a missing-comma error latched. -/
theorem C4_calls_go_on_after_a_rejection :
    Write "[]".toList (rejectOnly .StartArray) fresh
        = .ok () { reader := { fresh.reader with
                                 parseResult_ := ⟨.kParseErrorTermination, 1⟩, offset_ := 3 },
                   trace := [.StartArray, .EndArray 0] }
      ∧ (rejectOnly .StartArray) [] .StartArray = false
      ∧ Write "[true,true ]".toList (rejectOnly .StartArray) fresh
        = .ok () { reader := { fresh.reader with
                                 parseResult_ := ⟨.kParseErrorArrayMissCommaOrSquareBracket, 6⟩,
                                 offset_ := 13 },
                   trace := [.StartArray, .Bool true, .Bool true, .EndArray 2] }
      ∧ Write "[1,2]".toList (fun _ e => match e with | .Number _ => false | _ => true) fresh
        = .fault .outOfBounds
            { reader := { fresh.reader with
                            parseResult_ := ⟨.kParseErrorArrayMissCommaOrSquareBracket, 3⟩ },
              trace := [.StartArray] } := by
  decide

/-- C5 as stated fails: after the single chunk `{"a":1` on a fresh reader with
the accepting handler, `Write` returns and `IterativeParseFinish` reports no
error. -/
theorem C5_counterexample :
    (Write "\x7b\x22a\x22:1".toList acceptAll fresh).isOk = true
      ∧ (IterativeParseFinish
            (Write "\x7b\x22a\x22:1".toList acceptAll fresh).world.reader).IsError = false := by
  decide

/-- C5 as amended: `IterativeParseFinish` makes no end-of-input check, it
returns the parse result that the reader holds, and input that merely ends
early latches nothing. For every reader state and every sequence of `Write`
calls whose chunks contain no `[` and whose handlers accept every event, if
the calls return then `IterativeParseFinish` returns exactly the result held
before them (after `IterativeParseInit`: no error), whether or not the bytes
fed end inside an object or a token. -/
theorem C5_finish_returns_the_held_result (calls : List (List Char × Handler)) (w : World)
    (hcalls : ∀ c ∈ calls, '[' ∉ c.1 ∧ ∀ t e, c.2 t e = true)
    (hok : (WriteEach calls w).isOk = true) :
    IterativeParseFinish (WriteEach calls w).world.reader = w.reader.parseResult_ := by
  have h := write_each_holds w.reader.parseResult_ calls w hcalls rfl
  cases hr : WriteEach calls w with
  | ok u w1 =>
    rw [hr] at h
    exact h
  | fault f w1 =>
    rw [hr] at hok
    cases hok

/-- Witness for C5 as amended: the single chunk `{"a":1` with the accepting
handler on a fresh reader; the result returned is the cleared one. -/
theorem C5_finish_returns_the_held_result_witness :
    (∀ c ∈ [("\x7b\x22a\x22:1".toList, acceptAll)], '[' ∉ c.1 ∧ ∀ t e, c.2 t e = true)
      ∧ (WriteEach [("\x7b\x22a\x22:1".toList, acceptAll)] fresh).isOk = true
      ∧ IterativeParseFinish (WriteEach [("\x7b\x22a\x22:1".toList, acceptAll)] fresh).world.reader
        = fresh.reader.parseResult_
      ∧ fresh.reader.parseResult_ = { code_ := .kParseErrorNone, offset_ := 0 } :=
  ⟨by
      intro c hc
      rw [List.mem_singleton] at hc
      subst hc
      exact ⟨by decide, fun _ _ => rfl⟩,
    by decide,
    C5_finish_returns_the_held_result [("\x7b\x22a\x22:1".toList, acceptAll)] fresh
      (by
        intro c hc
        rw [List.mem_singleton] at hc
        subst hc
        exact ⟨by decide, fun _ _ => rfl⟩)
      (by decide),
    rfl⟩

/-- C6 (offset correctness), on the code: in `[[true true ] ]` the first byte
that violates the grammar is the `t` at index 7 (a value where `,` or `]` is
due); `Write` returns with the missing-comma error latched at offset 6, which
is what `IterativeParseFinish` returns, while `GetErrorOffset` returns 0. -/
theorem C6_reported_offset_is_off :
    Write "[[true true ] ]".toList acceptAll fresh
        = .ok () { reader := { fresh.reader with
                                 parseResult_ := ⟨.kParseErrorArrayMissCommaOrSquareBracket, 6⟩,
                                 offset_ := 16 },
                   trace := [.StartArray, .StartArray, .Bool true, .Bool true,
                             .EndArray 2, .EndArray 1] }
      ∧ "[[true true ] ]".toList.get? 6 = some ' '
      ∧ "[[true true ] ]".toList.get? 7 = some 't'
      ∧ (IterativeParseFinish
            (Write "[[true true ] ]".toList acceptAll fresh).world.reader).offset_ = 6
      ∧ GetErrorOffset (Write "[[true true ] ]".toList acceptAll fresh).world.reader = 0 := by
  decide

/-- C7 (rejection offset), on the code: a rejected `StartArray` on `[]` is
latched at offset 1, not at the offset 0 of the bracket; after the chunk of one
blank it is latched at 2, not at 1; and a rejected `Bool(true)` inside
`[true ]` is latched at offset 0, not at the offset 1 of the literal. -/
theorem C7_rejection_offset_is_off :
    (Write "[]".toList (rejectOnly .StartArray) fresh).world.reader.parseResult_
        = ⟨.kParseErrorTermination, 1⟩
      ∧ (WriteAll (rejectOnly .StartArray) [" ".toList, "[]".toList] fresh).world.reader.parseResult_
        = ⟨.kParseErrorTermination, 2⟩
      ∧ Write "[true ]".toList (rejectOnly (.Bool true)) fresh
        = .ok () { reader := { fresh.reader with
                                 parseResult_ := ⟨.kParseErrorTermination, 0⟩, offset_ := 8 },
                   trace := [.StartArray, .Bool true, .EndArray 1] } := by
  decide

/-- C8 (a latched error is terminal), on the code: in the world `latched`,
reached by a `Write` that latched the termination error at offset 1, a further
`Write` of `[true,true ]` makes four handler calls, moves `offset_` from 3 to
16 and replaces the latched error by a missing-comma error at 9: the result
is set a second time. -/
theorem C8_write_goes_on_after_a_latched_error :
    (Write "[]".toList (rejectOnly .StartArray) fresh).world = latched
      ∧ latched.reader.parseResult_.IsError = true
      ∧ Write "[true,true ]".toList acceptAll latched
        = .ok () { reader := { latched.reader with
                                 parseResult_ := ⟨.kParseErrorArrayMissCommaOrSquareBracket, 9⟩,
                                 offset_ := 16 },
                   trace := latched.trace ++ [.StartArray, .Bool true, .Bool true, .EndArray 2] } := by
  decide

/-- C10 (the accessors inspect the latched error), on the code: after `Write`
of `[]` with a handler rejecting `StartArray`, `IterativeParseFinish` returns
the termination error at offset 1, yet `HasParseError` is false,
`GetParseErrorCode` is `kParseErrorNone` and `GetErrorOffset` is 0. -/
theorem C10_accessors_ignore_the_latched_error :
    IterativeParseFinish (Write "[]".toList (rejectOnly .StartArray) fresh).world.reader
        = ⟨.kParseErrorTermination, 1⟩
      ∧ (IterativeParseFinish
            (Write "[]".toList (rejectOnly .StartArray) fresh).world.reader).IsError = true
      ∧ HasParseError (Write "[]".toList (rejectOnly .StartArray) fresh).world.reader = false
      ∧ GetParseErrorCode (Write "[]".toList (rejectOnly .StartArray) fresh).world.reader
        = .kParseErrorNone
      ∧ GetErrorOffset (Write "[]".toList (rejectOnly .StartArray) fresh).world.reader = 0 := by
  decide

/-- C11 (offset accounting), on the code: `Write` of the 4-byte chunk `true`
leaves `offset_` at 5, of the 1-byte chunk `1` at 2 and of the 1-byte chunk
`-` at 3; after the chunks `true` and `1` from a fresh reader, 5 bytes
supplied, `offset_` is 7. -/
theorem C11_offset_exceeds_the_bytes_supplied :
    (Write "true".toList acceptAll fresh).world.reader.offset_ = 5
      ∧ Write "1".toList acceptAll fresh
        = .ok () { reader := { fresh.reader with offset_ := 2 }, trace := [] }
      ∧ Write "-".toList acceptAll fresh
        = .ok () { reader := { fresh.reader with offset_ := 3 }, trace := [] }
      ∧ WriteAll acceptAll ["true".toList, "1".toList] fresh
        = .ok () { reader := { fresh.reader with offset_ := 7 }, trace := [] } := by
  decide

/-- C12 (malformed literal), on the code: `Write` of the chunk `trux ` latches
the value-invalid error at offset 0 and then calls `abort()`; it does not
return. -/
theorem C12_malformed_literal_aborts :
    Write "trux ".toList acceptAll fresh
      = .fault .aborted
          { reader := { fresh.reader with parseResult_ := ⟨.kParseErrorValueInvalid, 0⟩ },
            trace := [] } := by
  decide

/-- C13 (Init resets the reader): from every reader state `IterativeParseInit`
gives the cleared parse result (no error), the start state and offset 0, that
is the freshly initialised reader; so every sequence of `Write` calls, started
with the same handler history, ends in the same world (same handler events,
same result for `IterativeParseFinish`, same offset) as on a fresh instance. -/
theorem C13_init_resets_the_reader (r : Reader) :
    (IterativeParseInit r).parseResult_ = { code_ := .kParseErrorNone, offset_ := 0 }
      ∧ (IterativeParseInit r).parseResult_.IsError = false
      ∧ (IterativeParseInit r).state_ = .IterativeParsingStartState
      ∧ (IterativeParseInit r).offset_ = 0
      ∧ IterativeParseInit r = fresh.reader
      ∧ ∀ (calls : List (List Char × Handler)) (trace : List Event),
          WriteEach calls { reader := IterativeParseInit r, trace := trace }
            = WriteEach calls { reader := fresh.reader, trace := trace }
          ∧ IterativeParseFinish
              (WriteEach calls { reader := IterativeParseInit r, trace := trace }).world.reader
            = IterativeParseFinish
              (WriteEach calls { reader := fresh.reader, trace := trace }).world.reader :=
  ⟨rfl, rfl, rfl, rfl, rfl, fun _ _ => ⟨rfl, rfl⟩⟩

/-- C14 (exact token consumption), on the code: at the first byte of `true` in
the chunk `true ` `ProcessNext` returns position 5, not 4, so the blank is
never examined; and at the first byte of the incomplete `tr` it returns
position 1, not 0, and `Write` then counts the whole chunk and one byte more
as consumed (`offset_` 3). -/
theorem C14_literal_consumes_one_byte_more :
    ProcessNext "true ".toList 4 acceptAll 0 fresh
        = .ok 5 { reader := fresh.reader, trace := [.Bool true] }
      ∧ ProcessNext "tr".toList 1 acceptAll 0 fresh = .ok 1 fresh
      ∧ Write "tr".toList acceptAll fresh
        = .ok () { reader := { fresh.reader with offset_ := 3 }, trace := [] } := by
  decide

/-- C15 (element counts), on the code: `Write` of `[true]` calls `StartArray`
and `Bool(true)` and then reads the byte after the chunk, `EndArray(1)` is
never called; `Write` of `[true,false]` calls `StartArray`, `Bool(true)`,
latches a missing-comma error at offset 6, calls `Bool(false)` and reads past
the chunk, `EndArray(2)` is never called. -/
theorem C15_array_of_literals_reads_past_the_chunk :
    Write "[true]".toList acceptAll fresh
        = .fault .outOfBounds { reader := fresh.reader, trace := [.StartArray, .Bool true] }
      ∧ Write "[true,false]".toList acceptAll fresh
        = .fault .outOfBounds
            { reader := { fresh.reader with
                            parseResult_ := ⟨.kParseErrorArrayMissCommaOrSquareBracket, 6⟩ },
              trace := [.StartArray, .Bool true, .Bool false] } := by
  decide

/-- C16 (empty containers): for every run `ws` of space, tab, CR and LF bytes
and every accepting handler, `Write` of the single chunk `[` `ws` `]` on a
fresh reader returns with exactly the calls `StartArray`, `EndArray(0)` made,
and `Write` of the single chunk `{` `ws` `}` with exactly the calls
`StartObject`, `EndObject(0)`; in both cases no error is latched. -/
theorem C16_empty_containers (ws : List Char) (handler : Handler)
    (hws : ∀ c ∈ ws, IsWhiteSpace c = true) (hacc : ∀ t e, handler t e = true) :
    Write ('[' :: (ws ++ [']'])) handler fresh
        = .ok () { reader := { fresh.reader with offset_ := (ws.length + 3) % SIZE_MOD },
                   trace := [.StartArray, .EndArray 0] }
      ∧ (IterativeParseFinish
            (Write ('[' :: (ws ++ [']'])) handler fresh).world.reader).IsError = false
      ∧ Write ('\x7b' :: (ws ++ ['\x7d'])) handler fresh
        = .ok () { reader := { fresh.reader with offset_ := (ws.length + 3) % SIZE_MOD },
                   trace := [.StartObject, .EndObject 0] }
      ∧ (IterativeParseFinish
            (Write ('\x7b' :: (ws ++ ['\x7d'])) handler fresh).world.reader).IsError = false := by
  have harr : Write ('[' :: (ws ++ [']'])) handler fresh
      = .ok () { reader := { fresh.reader with offset_ := (ws.length + 3) % SIZE_MOD },
                 trace := [.StartArray, .EndArray 0] } := by
    obtain ⟨h0, hlast, hrun⟩ := readAt_cons_run '[' ']' ws hws
    have hlen : ('[' :: (ws ++ [']'])).length = ws.length + 2 := by simp
    have hn := next_empty_array _ ws.length handler fresh hacc hlen h0 hlast hrun
    rw [write_single_value _ handler fresh _ (ws.length + 3) (by omega) (by omega) hn]
    simp [fresh, IterativeParseInit]
  have hobj : Write ('\x7b' :: (ws ++ ['\x7d'])) handler fresh
      = .ok () { reader := { fresh.reader with offset_ := (ws.length + 3) % SIZE_MOD },
                 trace := [.StartObject, .EndObject 0] } := by
    obtain ⟨h0, hlast, hrun⟩ := readAt_cons_run '\x7b' '\x7d' ws hws
    have hlen : ('\x7b' :: (ws ++ ['\x7d'])).length = ws.length + 2 := by simp
    have hn := next_empty_object _ ws.length handler fresh hacc hlen h0 hlast hrun
    rw [write_single_value _ handler fresh _ (ws.length + 3) (by omega) (by omega) hn]
    simp [fresh, IterativeParseInit]
  refine ⟨harr, ?_, hobj, ?_⟩
  · rw [harr]; rfl
  · rw [hobj]; rfl

/-- Witness for C16: the run of a blank and a line feed, and the accepting
handler. -/
theorem C16_empty_containers_witness :
    (∀ c ∈ " \n".toList, IsWhiteSpace c = true)
      ∧ (∀ t e, acceptAll t e = true)
      ∧ Write ('[' :: (" \n".toList ++ [']'])) acceptAll fresh
        = .ok ()
            { reader := { fresh.reader with offset_ := (" \n".toList.length + 3) % SIZE_MOD },
              trace := [.StartArray, .EndArray 0] }
      ∧ (IterativeParseFinish
            (Write ('[' :: (" \n".toList ++ [']'])) acceptAll fresh).world.reader).IsError = false
      ∧ Write ('\x7b' :: (" \n".toList ++ ['\x7d'])) acceptAll fresh
        = .ok ()
            { reader := { fresh.reader with offset_ := (" \n".toList.length + 3) % SIZE_MOD },
              trace := [.StartObject, .EndObject 0] }
      ∧ (IterativeParseFinish
            (Write ('\x7b' :: (" \n".toList ++ ['\x7d'])) acceptAll fresh).world.reader).IsError
        = false :=
  ⟨by decide, fun _ _ => rfl,
    C16_empty_containers " \n".toList acceptAll (by decide) (fun _ _ => rfl)⟩

/-- C17 (whitespace is skipped silently): for every chunk of space, tab, CR
and LF bytes only, every handler and every reader state (with `offset_` a
`size_t` value), `Write` returns with no handler call made, the parse result
as it was, and `offset_` advanced by the length of the chunk (in `size_t`
arithmetic). -/
theorem C17_whitespace_is_skipped (chunk : List Char) (handler : Handler) (w : World)
    (hws : ∀ c ∈ chunk, IsWhiteSpace c = true) (hoff : w.reader.offset_ < SIZE_MOD) :
    Write chunk handler w
      = .ok () { reader := { w.reader with
                               offset_ := (w.reader.offset_ + chunk.length) % SIZE_MOD },
                 trace := w.trace } := by
  unfold Write
  exact write_loop_whitespace chunk handler hws _ 0 w (Nat.zero_le _) (by omega) hoff

/-- Witness for C17: the four whitespace bytes as one chunk, on a fresh reader. -/
theorem C17_whitespace_is_skipped_witness :
    (∀ c ∈ " \t\r\n".toList, IsWhiteSpace c = true)
      ∧ fresh.reader.offset_ < SIZE_MOD
      ∧ Write " \t\r\n".toList acceptAll fresh
        = .ok ()
            { reader := { fresh.reader with
                            offset_ := (fresh.reader.offset_ + " \t\r\n".toList.length) % SIZE_MOD },
              trace := fresh.trace } :=
  ⟨by decide, by decide,
    C17_whitespace_is_skipped " \t\r\n".toList acceptAll fresh (by decide) (by decide)⟩

/-- C18 (progress and termination), on the code: `Write` of the chunk `nulx `
does not return, the first `ProcessNext` call ends in `abort()`; and `Write`
of `[1` does not return normally either, it reads index 3 of the 2-byte
chunk. -/
theorem C18_write_does_not_always_return :
    ProcessNext "nulx ".toList 4 acceptAll 0 fresh
        = .fault .aborted
            { reader := { fresh.reader with parseResult_ := ⟨.kParseErrorValueInvalid, 0⟩ },
              trace := [] }
      ∧ (Write "nulx ".toList acceptAll fresh).isOk = false
      ∧ Write "[1".toList acceptAll fresh
        = .fault .outOfBounds { reader := fresh.reader, trace := [.StartArray] } := by
  decide

/-- C19 (bounds safety), on the code: `Write` of the 6-byte chunk `[true]`
reads the byte at index 6: after `ParseValue` has returned position 6,
`SKIP_WHITESPACE` in `ParseArray` reads `*p` there. -/
theorem C19_read_past_the_chunk :
    "[true]".toList.length = 6
      ∧ readAt "[true]".toList 6 = none
      ∧ ParseValue "[true]".toList 5 acceptAll 7 1
          { reader := fresh.reader, trace := [.StartArray] }
        = .ok 6 { reader := fresh.reader, trace := [.StartArray, .Bool true] }
      ∧ Write "[true]".toList acceptAll fresh
        = .fault .outOfBounds { reader := fresh.reader, trace := [.StartArray, .Bool true] } := by
  decide

/-- C20 (literal recognition needs a following byte): when `ProcessNext` is
called at index `i` of a chunk of size `n`, with `end` the last byte, at the
first byte of a literal `L` (`true`, `false` or `null`) and with an accepting
handler, the matching event is the one call added to the handler's record if
and only if the bytes at `i..i+len(L)-1` spell `L` and `i + len(L) <= n - 1`;
and when it is, `ProcessNext` returns the position `i + len(L) + 1` with the
reader unchanged. -/
theorem C20_literal_needs_a_following_byte (L : Literal) (chunk : List Char) (i : Nat)
    (handler : Handler) (w : World)
    (hfirst : readAt chunk i = L.text.head?) (hacc : ∀ t e, handler t e = true) :
    ((ProcessNext chunk ((chunk.length : Int) - 1) handler i w).world.trace
          = w.trace ++ [L.event]
        ↔ ((chunk.drop i).take L.text.length = L.text
            ∧ i + L.text.length ≤ chunk.length - 1))
      ∧ ((ProcessNext chunk ((chunk.length : Int) - 1) handler i w).world.trace
            = w.trace ++ [L.event]
          → ProcessNext chunk ((chunk.length : Int) - 1) handler i w
            = .ok (i + L.text.length + 1)
                { reader := w.reader, trace := w.trace ++ [L.event] }) := by
  cases L with
  | kTrue =>
    have h : readAt chunk i = some 't' := hfirst
    unfold ProcessNext
    rw [h]
    simp only [show IsWhiteSpace 't' = false by decide, Bool.false_eq_true, if_false]
    unfold ParseValue
    rw [h]
    simp only [show ¬ ('t' = '\x7b') by decide, show ¬ ('t' = '[') by decide, if_false, if_true]
    exact literal_run 't' ['r', 'u', 'e'] (.Bool true) chunk handler i w h hacc
  | kFalse =>
    have h : readAt chunk i = some 'f' := hfirst
    unfold ProcessNext
    rw [h]
    simp only [show IsWhiteSpace 'f' = false by decide, Bool.false_eq_true, if_false]
    unfold ParseValue
    rw [h]
    simp only [show ¬ ('f' = '\x7b') by decide, show ¬ ('f' = '[') by decide,
      show ¬ ('f' = 't') by decide, if_false, if_true]
    exact literal_run 'f' ['a', 'l', 's', 'e'] (.Bool false) chunk handler i w h hacc
  | kNull =>
    have h : readAt chunk i = some 'n' := hfirst
    unfold ProcessNext
    rw [h]
    simp only [show IsWhiteSpace 'n' = false by decide, Bool.false_eq_true, if_false]
    unfold ParseValue
    rw [h]
    simp only [show ¬ ('n' = '\x7b') by decide, show ¬ ('n' = '[') by decide,
      show ¬ ('n' = 't') by decide, show ¬ ('n' = 'f') by decide, if_false, if_true]
    exact literal_run 'n' ['u', 'l', 'l'] .Null chunk handler i w h hacc

/-- Witness for C20: the literal `true` at index 0 of the chunk `true `. -/
theorem C20_literal_needs_a_following_byte_witness :
    readAt "true ".toList 0 = Literal.kTrue.text.head?
      ∧ (∀ t e, acceptAll t e = true)
      ∧ ((ProcessNext "true ".toList (("true ".toList.length : Int) - 1) acceptAll 0
              fresh).world.trace = fresh.trace ++ [Literal.kTrue.event]
          ↔ (("true ".toList.drop 0).take Literal.kTrue.text.length = Literal.kTrue.text
              ∧ 0 + Literal.kTrue.text.length ≤ "true ".toList.length - 1))
      ∧ ((ProcessNext "true ".toList (("true ".toList.length : Int) - 1) acceptAll 0
              fresh).world.trace = fresh.trace ++ [Literal.kTrue.event]
          → ProcessNext "true ".toList (("true ".toList.length : Int) - 1) acceptAll 0 fresh
            = .ok (0 + Literal.kTrue.text.length + 1)
                { reader := fresh.reader, trace := fresh.trace ++ [Literal.kTrue.event] }) :=
  ⟨rfl, fun _ _ => rfl,
    C20_literal_needs_a_following_byte .kTrue "true ".toList 0 acceptAll fresh rfl
      (fun _ _ => rfl)⟩

end rapidjson
